import Mathlib

/-!
Verification of the `textfile` Ansible module
(`lib/ansible/modules/files/textfile.py`).

The module's core is a pure transformation over the raw bytes of a file:
guess or accept a source encoding, strip a leading byte order mark,
decode, normalize line endings, apply an end-of-line policy at the end of
the text, re-encode, optionally re-attach the byte order mark, and report
whether the bytes changed.  File I/O and Ansible argument parsing are thin
orchestration around this core and are not modelled.

Encoding conventions of the embedding:
* raw bytes are `List Nat` with values below 256 (the byte-range side
  conditions appear as hypotheses where they matter);
* decoded text is `List Nat` of Unicode code points;
* the encoding catalog is restricted to the codecs exercised by the
  module's own tests and heuristics (`ascii`, `utf_8`, `cp1252`,
  `latin_1`, `utf_16_le`, `utf_16_be`); the remaining single- and
  multi-byte codecs of the full catalog play no role in the verified
  properties;
* Python codec behaviour (`bytes.decode`, `str.encode` with
  `strict`/`replace`/`ignore`, `str.replace`, `str.endswith`, slicing)
  is embedded by executable Lean functions with the same semantics.
-/

set_option autoImplicit false

namespace Textfile

/-- Line-terminator choice, the `eol` option of the module. -/
inductive Eol
  | cr
  | lf
  | crlf
deriving DecidableEq, Repr

/-- The `end_eol` option: policy for the terminator at the end of text. -/
inductive EndEolPolicy
  | absent
  | present
  | asIs
deriving DecidableEq, Repr

/-- The `bom` option: whether an input byte order mark is preserved. -/
inductive BomPolicy
  | absent
  | asIs
deriving DecidableEq, Repr

/-- The `encoding_errors` option, passed to `str.encode`. -/
inductive ErrPolicy
  | strict
  | replace
  | ignore
deriving DecidableEq, Repr

/-- The encodings relevant to the verified behaviour: the four fallback
codecs of `guess_encoding` plus the two UTF-16 variants it can report. -/
inductive Enc
  | ascii
  | utf_8
  | cp1252
  | latin_1
  | utf_16_le
  | utf_16_be
deriving DecidableEq, Repr

/-- The module parameters consumed by `process_file` (the `path` parameter
and file I/O are orchestration and not part of the core).  `encoding =
none` stands for `as-is`, `original_encoding = none` stands for `guess`. -/
structure Config where
  eol : Eol
  end_eol : EndEolPolicy
  bom : BomPolicy
  encoding : Option Enc
  original_encoding : Option Enc
  encoding_errors : ErrPolicy
deriving DecidableEq, Repr

/-- Failure kinds of the transform: `decodeError` for
`UnicodeDecodeError`, `encodeError` for `UnicodeEncodeError`, `bug` for
the defensive `raise` at the end of `guess_encoding`. -/
inductive TfError
  | decodeError
  | encodeError
  | bug
deriving DecidableEq, Repr

/-- UTF-8 byte order mark, `b'\xef\xbb\xbf'` in the source. -/
def bom8 : List Nat := [0xEF, 0xBB, 0xBF]

/-- UTF-16 little endian byte order mark, `b'\xff\xfe'`. -/
def bom16le : List Nat := [0xFF, 0xFE]

/-- UTF-16 big endian byte order mark, `b'\xfe\xff'`. -/
def bom16be : List Nat := [0xFE, 0xFF]

/-- Byte sequence of the `eol` choice when it appears in text
(code points coincide with bytes for CR and LF). -/
def eolChars : Eol → List Nat
  | .cr => [13]
  | .lf => [10]
  | .crlf => [13, 10]

/-- Python's `cp1252` decoding table: one byte to one code point, with
the 0x80-0x9F block remapped per Windows-1252 and the five holes
0x81, 0x8D, 0x8F, 0x90, 0x9D undefined (decode errors). -/
def cp1252Table (b : Nat) : Option Nat :=
  if b < 128 then some b
  else if b < 160 then
    if b = 128 then some 8364
    else if b = 130 then some 8218
    else if b = 131 then some 402
    else if b = 132 then some 8222
    else if b = 133 then some 8230
    else if b = 134 then some 8224
    else if b = 135 then some 8225
    else if b = 136 then some 710
    else if b = 137 then some 8240
    else if b = 138 then some 352
    else if b = 139 then some 8249
    else if b = 140 then some 338
    else if b = 142 then some 381
    else if b = 145 then some 8216
    else if b = 146 then some 8217
    else if b = 147 then some 8220
    else if b = 148 then some 8221
    else if b = 149 then some 8226
    else if b = 150 then some 8211
    else if b = 151 then some 8212
    else if b = 152 then some 732
    else if b = 153 then some 8482
    else if b = 154 then some 353
    else if b = 155 then some 8250
    else if b = 156 then some 339
    else if b = 158 then some 382
    else if b = 159 then some 376
    else none
  else if b < 256 then some b
  else none

/-- Inverse of `cp1252Table`: code point to `cp1252` byte. -/
def cp1252Inv (c : Nat) : Option Nat :=
  if c < 128 then some c
  else if 160 ≤ c ∧ c < 256 then some c
  else if c = 8364 then some 128
  else if c = 8218 then some 130
  else if c = 402 then some 131
  else if c = 8222 then some 132
  else if c = 8230 then some 133
  else if c = 8224 then some 134
  else if c = 8225 then some 135
  else if c = 710 then some 136
  else if c = 8240 then some 137
  else if c = 352 then some 138
  else if c = 8249 then some 139
  else if c = 338 then some 140
  else if c = 381 then some 142
  else if c = 8216 then some 145
  else if c = 8217 then some 146
  else if c = 8220 then some 147
  else if c = 8221 then some 148
  else if c = 8226 then some 149
  else if c = 8211 then some 150
  else if c = 8212 then some 151
  else if c = 732 then some 152
  else if c = 8482 then some 153
  else if c = 353 then some 154
  else if c = 8250 then some 155
  else if c = 339 then some 156
  else if c = 382 then some 158
  else if c = 376 then some 159
  else none

/-- Python `bytes.decode('ascii')`: bytes below 0x80 map to themselves,
anything else raises. -/
def decodeAscii : List Nat → Option (List Nat)
  | [] => some []
  | b :: t => if b < 128 then (decodeAscii t).map (b :: ·) else none

/-- Python `bytes.decode('latin_1')`: every byte maps to the code point
of the same value. -/
def decodeLatin1 (b : List Nat) : Option (List Nat) := some b

/-- Python `bytes.decode('cp1252')` via the decoding table. -/
def decodeCp1252 : List Nat → Option (List Nat)
  | [] => some []
  | b :: t =>
    match cp1252Table b with
    | some c => (decodeCp1252 t).map (c :: ·)
    | none => none

/-- UTF-8 continuation byte test. -/
def isCont (c : Nat) : Prop := 0x80 ≤ c ∧ c ≤ 0xBF

instance (c : Nat) : Decidable (isCont c) := by unfold isCont; infer_instance

/-- Valid second byte for a three-byte UTF-8 sequence with first byte
`b`, excluding overlong forms (`E0`) and surrogates (`ED`). -/
def utf8Mid2Ok (b c : Nat) : Prop :=
  if b = 0xE0 then 0xA0 ≤ c ∧ c ≤ 0xBF
  else if b = 0xED then 0x80 ≤ c ∧ c ≤ 0x9F
  else isCont c

instance (b c : Nat) : Decidable (utf8Mid2Ok b c) := by
  unfold utf8Mid2Ok; infer_instance

/-- Valid second byte for a four-byte UTF-8 sequence with first byte `b`,
excluding overlong forms (`F0`) and code points above U+10FFFF (`F4`). -/
def utf8Mid3Ok (b c : Nat) : Prop :=
  if b = 0xF0 then 0x90 ≤ c ∧ c ≤ 0xBF
  else if b = 0xF4 then 0x80 ≤ c ∧ c ≤ 0x8F
  else isCont c

instance (b c : Nat) : Decidable (utf8Mid3Ok b c) := by
  unfold utf8Mid3Ok; infer_instance

/-- Python `bytes.decode('utf_8')`: strict UTF-8, rejecting overlong
forms, surrogates, truncated sequences and code points above U+10FFFF. -/
def decodeUtf8 : List Nat → Option (List Nat)
  | [] => some []
  | b :: t =>
    if b < 0x80 then (decodeUtf8 t).map (b :: ·)
    else if 0xC2 ≤ b ∧ b ≤ 0xDF then
      match t with
      | c :: t2 =>
        if isCont c then (decodeUtf8 t2).map (((b - 0xC0) * 64 + (c - 0x80)) :: ·)
        else none
      | [] => none
    else if 0xE0 ≤ b ∧ b ≤ 0xEF then
      match t with
      | c :: d :: t2 =>
        if utf8Mid2Ok b c ∧ isCont d then
          (decodeUtf8 t2).map (((b - 0xE0) * 4096 + (c - 0x80) * 64 + (d - 0x80)) :: ·)
        else none
      | _ => none
    else if 0xF0 ≤ b ∧ b ≤ 0xF4 then
      match t with
      | c :: d :: e :: t2 =>
        if utf8Mid3Ok b c ∧ isCont d ∧ isCont e then
          (decodeUtf8 t2).map
            (((b - 0xF0) * 262144 + (c - 0x80) * 4096 + (d - 0x80) * 64 + (e - 0x80)) :: ·)
        else none
      | _ => none
    else none

/-- The 16-bit word formed by two consecutive bytes, in big- or
little-endian order. -/
def w16 (be : Bool) (a b : Nat) : Nat :=
  if be then a * 256 + b else b * 256 + a

/-- Python `bytes.decode('utf_16_be')` / `('utf_16_le')`: words are read
two bytes at a time, surrogate pairs are combined, lone surrogates and
truncated data raise. -/
def decodeUtf16 (be : Bool) : List Nat → Option (List Nat)
  | [] => some []
  | [_] => none
  | a :: b :: t =>
    if w16 be a b < 0xD800 ∨ 0xE000 ≤ w16 be a b then
      (decodeUtf16 be t).map (w16 be a b :: ·)
    else if w16 be a b < 0xDC00 then
      match t with
      | c :: d :: t2 =>
        if 0xDC00 ≤ w16 be c d ∧ w16 be c d < 0xE000 then
          (decodeUtf16 be t2).map
            ((0x10000 + (w16 be a b - 0xD800) * 1024 + (w16 be c d - 0xDC00)) :: ·)
        else none
      | _ => none
    else none

/-- `bytes.decode(enc)` for the modelled catalog. -/
def decodeText : Enc → List Nat → Option (List Nat)
  | .ascii, b => decodeAscii b
  | .utf_8, b => decodeUtf8 b
  | .cp1252, b => decodeCp1252 b
  | .latin_1, b => decodeLatin1 b
  | .utf_16_le, b => decodeUtf16 false b
  | .utf_16_be, b => decodeUtf16 true b

/-- The two bytes of a 16-bit word in the requested endianness. -/
def w16bytes (be : Bool) (w : Nat) : List Nat :=
  if be then [w / 256, w % 256] else [w % 256, w / 256]

/-- Encoding of one code point in UTF-16 (`be` selects the endianness):
basic-plane code points become one word, code points above U+FFFF a
surrogate pair; lone surrogates are unencodable. -/
def utf16EncChar (be : Bool) (c : Nat) : Option (List Nat) :=
  if c < 0x10000 then
    if 0xD800 ≤ c ∧ c < 0xE000 then none else some (w16bytes be c)
  else if c < 0x110000 then
    some (w16bytes be (0xD800 + (c - 0x10000) / 1024) ++
          w16bytes be (0xDC00 + (c - 0x10000) % 1024))
  else none

/-- Encoding of one code point under each catalog encoding; `none` means
the code point is unrepresentable (a `UnicodeEncodeError` under
`strict`). -/
def encChar : Enc → Nat → Option (List Nat)
  | .ascii, c => if c < 128 then some [c] else none
  | .latin_1, c => if c < 256 then some [c] else none
  | .cp1252, c => (cp1252Inv c).map ([·])
  | .utf_8, c =>
    if c < 0x80 then some [c]
    else if c < 0x800 then some [0xC0 + c / 64, 0x80 + c % 64]
    else if c < 0x10000 then
      if 0xD800 ≤ c ∧ c < 0xE000 then none
      else some [0xE0 + c / 4096, 0x80 + c / 64 % 64, 0x80 + c % 64]
    else if c < 0x110000 then
      some [0xF0 + c / 262144, 0x80 + c / 4096 % 64, 0x80 + c / 64 % 64,
            0x80 + c % 64]
    else none
  | .utf_16_le, c => utf16EncChar false c
  | .utf_16_be, c => utf16EncChar true c

/-- Python `str.encode(enc, errors)`: each code point is encoded in
turn; an unrepresentable code point raises under `strict`, is replaced
by the encoding of `'?'` (code point 63) under `replace`, and is skipped
under `ignore`. -/
def encodeText (e : Enc) (err : ErrPolicy) : List Nat → Option (List Nat)
  | [] => some []
  | c :: t =>
    match encChar e c with
    | some bs => (encodeText e err t).map (bs ++ ·)
    | none =>
      match err with
      | .strict => none
      | .replace => (encodeText e err t).map (((encChar e 63).getD []) ++ ·)
      | .ignore => encodeText e err t

/-- `guess_encoding` from the source: a zero byte classifies the buffer
as UTF-16 by the parity of the first zero's index; otherwise the ordered
fallback list `ascii`, `utf_8`, `cp1252`, `latin_1` is tried and the
first full decode wins.  `none` corresponds to the defensive
`raise Exception("bug: fallback failed for guess_encoding")`. -/
def guess_encoding (b : List Nat) : Option Enc :=
  match List.findIdx? (fun x => x == 0) b with
  | some zero_ix =>
    if zero_ix % 2 = 0 then some .utf_16_be else some .utf_16_le
  | none =>
    match decodeText .ascii b with
    | some _ => some .ascii
    | none =>
      match decodeText .utf_8 b with
      | some _ => some .utf_8
      | none =>
        match decodeText .cp1252 b with
        | some _ => some .cp1252
        | none =>
          match decodeText .latin_1 b with
          | some _ => some .latin_1
          | none => none

/-- `utf_encoding_names` from the source. -/
def utf_encoding_names : List Enc := [.utf_8, .utf_16_be, .utf_16_le]

/-- The byte-order-mark deletion step of `process_file`: a leading UTF-8
mark is dropped (3 bytes), otherwise a leading UTF-16 mark of either
endianness is dropped (2 bytes), otherwise the bytes pass through; the
boolean records whether a mark was present. -/
def stripBom (b : List Nat) : List Nat × Bool :=
  if bom8.isPrefixOf b then (b.drop bom8.length, true)
  else if bom16le.isPrefixOf b || bom16be.isPrefixOf b then
    (b.drop bom16le.length, true)
  else (b, false)

/-- The byte-order-mark re-attachment step of `process_file`: only when
the target encoding is a UTF family member, the input had a mark, and
`bom` is `as-is`. -/
def addBom (to_enc : Enc) (have_bom : Bool) (p : BomPolicy) (b : List Nat) : List Nat :=
  if to_enc ∈ utf_encoding_names ∧ have_bom = true ∧ p = .asIs then
    if to_enc = .utf_8 then bom8 ++ b
    else if to_enc = .utf_16_le then bom16le ++ b
    else if to_enc = .utf_16_be then bom16be ++ b
    else b
  else b

/-- Worker for `pyReplace`, structurally recursive on a fuel bound (the
remaining input length shrinks at every step, so any fuel of at least
the input length yields the untruncated scan). -/
def pyReplaceGo : Nat → List Nat → List Nat → List Nat → List Nat
  | _, [], _, _ => []
  | 0, s, _, _ => s
  | fuel + 1, c :: rest, old, new =>
    if old ≠ [] ∧ old.isPrefixOf (c :: rest) then
      new ++ pyReplaceGo fuel ((c :: rest).drop old.length) old new
    else
      c :: pyReplaceGo fuel rest old new

/-- Python `str.replace(old, new)`: a single left-to-right pass replacing
each non-overlapping occurrence of `old` (the replacement is not
rescanned). -/
def pyReplace (s old new : List Nat) : List Nat :=
  pyReplaceGo s.length s old new

/-- The line-ending normalization of `process_file`: replace CRLF with
LF, then CR with LF, then LF with the target terminator. -/
def normalizeEol (eol s : List Nat) : List Nat :=
  pyReplace (pyReplace (pyReplace s [13, 10] [10]) [13] [10]) [10] eol

/-- The end-of-line policy step of `process_file`: under `present` the
terminator is appended when the text does not end with it (Python
`str.endswith`); under `absent` the final `len(eol)` characters are
sliced off (Python `s[:-len(eol)]`) when the text ends with it. -/
def applyEndEol (p : EndEolPolicy) (eol s : List Nat) : List Nat :=
  if p = .present ∧ ¬ eol <:+ s then s ++ eol
  else if p = .absent ∧ eol <:+ s then s.take (s.length - eol.length)
  else s

/-- The core of `process_file`, lines 355-445 of the source with the
file reads and writes elided: the input bytes and the module parameters
go in, the output bytes and the `changed` flag (exact byte comparison
with the input) come out; decode and encode failures surface as typed
errors. -/
def process_file (cfg : Config) (b_in : List Nat) : Except TfError (List Nat × Bool) :=
  match (match cfg.original_encoding with
         | none => guess_encoding b_in
         | some e => some e) with
  | none => .error .bug
  | some from_enc =>
    match decodeText from_enc (stripBom b_in).1 with
    | none => .error .decodeError
    | some s0 =>
      match encodeText (match cfg.encoding with | none => from_enc | some e => e)
          cfg.encoding_errors
          (applyEndEol cfg.end_eol (eolChars cfg.eol)
            (normalizeEol (eolChars cfg.eol) s0)) with
      | none => .error .encodeError
      | some b1 =>
        let b_out := addBom (match cfg.encoding with | none => from_enc | some e => e)
          (stripBom b_in).2 cfg.bom b1
        .ok (b_out, decide (b_out ≠ b_in))

/-! ### Specification-side definitions

These state, independently of the chained-`replace` implementation, what
the normalization and byte-order-mark steps are supposed to do; the
theorems below relate them to the definitions translated from the
source. -/

/-- Single left-to-right tokenizing pass: each maximal line-terminator
token (CRLF as one token, then lone CR, then lone LF) becomes exactly
one copy of the target terminator; all other characters pass through in
order. -/
def normSpec (eol : List Nat) : List Nat → List Nat
  | [] => []
  | [c] => if c = 13 ∨ c = 10 then eol else [c]
  | a :: b :: t =>
    if a = 13 ∧ b = 10 then eol ++ normSpec eol t
    else if a = 13 ∨ a = 10 then eol ++ normSpec eol (b :: t)
    else a :: normSpec eol (b :: t)

/-- Structural form of the first replacement: each CRLF pair becomes a
single LF, scanning left to right without overlap. -/
def repCRLF : List Nat → List Nat
  | [] => []
  | [c] => [c]
  | a :: b :: t =>
    if a = 13 ∧ b = 10 then 10 :: repCRLF t else a :: repCRLF (b :: t)

/-- Structural form of the third replacement: each LF becomes the target
terminator (the replacement is not rescanned). -/
def lfToEol (eol : List Nat) : List Nat → List Nat
  | [] => []
  | c :: t => (if c = 10 then eol else [c]) ++ lfToEol eol t

/-- Every CR is immediately followed by LF and every LF immediately
preceded by CR: all terminator tokens of the text are CRLF. -/
def crlfOk : List Nat → Bool
  | [] => true
  | [c] => !(c == 13 || c == 10)
  | a :: b :: t =>
    if a = 13 ∧ b = 10 then crlfOk t
    else if a = 13 ∨ a = 10 then false
    else crlfOk (b :: t)

/-- The text is fully normalized for the given terminator choice: for LF
no CR remains, for CR no LF remains, for CRLF all tokens are CRLF. -/
def isNorm : Eol → List Nat → Prop
  | .lf, t => 13 ∉ t
  | .cr, t => 10 ∉ t
  | .crlf, t => crlfOk t = true

/-- The byte order mark belonging to an encoding (empty for the
non-UTF encodings, for which no mark exists). -/
def bomBytes : Enc → List Nat
  | .utf_8 => bom8
  | .utf_16_le => bom16le
  | .utf_16_be => bom16be
  | _ => []

/-- Expected `str.encode(e, errors='ignore')` output: unrepresentable
code points are omitted with no placeholder. -/
def encIgnoreSpec (e : Enc) : List Nat → List Nat
  | [] => []
  | c :: t =>
    (match encChar e c with
     | some bs => bs
     | none => []) ++ encIgnoreSpec e t

/-- Expected `str.encode(e, errors='replace')` output: unrepresentable
code points are replaced by the encoding of `'?'` (code point 63). -/
def encReplaceSpec (e : Enc) : List Nat → List Nat
  | [] => []
  | c :: t =>
    (match encChar e c with
     | some bs => bs
     | none => (encChar e 63).getD []) ++ encReplaceSpec e t

/-! ### Theorems -/

/-- C1: the empty-input invariant fails in the code.  With `eol = lf`,
`end_eol = present` and all other parameters at their defaults, a
zero-length input produces the single byte LF and `changed = true`,
because `''.endswith(eol)` is false and the terminator is appended; the
claim (and the module's own unit test
`test_empty_file_remains_empty_and_changed_is_false_even_when_end_eol_required`)
requires empty output and `changed = false`. -/
theorem C1_empty_input_gets_terminator_appended :
    process_file ⟨.lf, .present, .asIs, none, none, .strict⟩ [] =
      .ok ([10], true) := rfl

/-- C10: totality of the guesser does not make the transform total.  The
odd-length buffer `[0x00]` contains a zero byte at even index 0, so
`guess_encoding` classifies it as UTF-16BE without checking decodability;
the subsequent decode of the (unchanged, BOM-free) byte under UTF-16BE
fails on truncated data and the transform surfaces a decode error with
no fallback. -/
theorem C10_guess_total_but_decode_fails :
    guess_encoding [0] = some .utf_16_be ∧
      process_file ⟨.lf, .asIs, .asIs, none, none, .strict⟩ [0] =
        .error .decodeError :=
  ⟨rfl, rfl⟩

/-- C2 counterexample: normalizing already-normalized content is not a
no-op.  With `end_eol = as-is` (not an absent-sensitive edge case) and
the source and target encodings both explicitly `latin_1`, the input
`EF BB BF FF FE 41` loses its UTF-8 mark and becomes `FF FE 41`; on a
second pass those leading content bytes are themselves mistaken for a
UTF-16LE mark and stripped (with no re-attachment for a non-UTF target),
so the second transform reports `changed = true` again. -/
theorem C2_second_transform_changes_again :
    process_file ⟨.lf, .asIs, .asIs, some .latin_1, some .latin_1, .strict⟩
        [0xEF, 0xBB, 0xBF, 0xFF, 0xFE, 0x41] = .ok ([0xFF, 0xFE, 0x41], true) ∧
      process_file ⟨.lf, .asIs, .asIs, some .latin_1, some .latin_1, .strict⟩
        [0xFF, 0xFE, 0x41] = .ok ([0x41], true) :=
  ⟨rfl, rfl⟩

/-- The fuel argument of `pyReplaceGo` is irrelevant once it covers the
input length. -/
theorem pyReplaceGo_eq_of_le :
    ∀ (f1 f2 : Nat) (s old new : List Nat), s.length ≤ f1 → s.length ≤ f2 →
      pyReplaceGo f1 s old new = pyReplaceGo f2 s old new := by
  intro f1
  induction f1 with
  | zero =>
    intro f2 s old new h1 _
    have hs : s = [] := List.eq_nil_of_length_eq_zero (Nat.le_zero.mp h1)
    subst hs
    cases f2 <;> rfl
  | succ f ih =>
    intro f2 s old new h1 h2
    cases s with
    | nil => cases f2 <;> rfl
    | cons c rest =>
      cases f2 with
      | zero => simp at h2
      | succ f2' =>
        simp only [List.length_cons, Nat.succ_le_succ_iff] at h1 h2
        simp only [pyReplaceGo]
        by_cases h : old ≠ [] ∧ old.isPrefixOf (c :: rest)
        · rw [if_pos h, if_pos h]
          have hop : 0 < old.length := List.length_pos.mpr h.1
          have hd : ((c :: rest).drop old.length).length ≤ rest.length := by
            simp only [List.length_drop, List.length_cons]
            omega
          exact congrArg (new ++ ·)
            (ih f2' _ old new (le_trans hd h1) (le_trans hd h2))
        · rw [if_neg h, if_neg h]
          exact congrArg (c :: ·) (ih f2' rest old new h1 h2)

/-- One-step unfolding of `pyReplace` on a nonempty input. -/
theorem pyReplace_cons (c : Nat) (rest old new : List Nat) :
    pyReplace (c :: rest) old new =
      if old ≠ [] ∧ old.isPrefixOf (c :: rest) then
        new ++ pyReplace ((c :: rest).drop old.length) old new
      else
        c :: pyReplace rest old new := by
  show pyReplaceGo (rest.length + 1) (c :: rest) old new = _
  simp only [pyReplaceGo]
  by_cases h : old ≠ [] ∧ old.isPrefixOf (c :: rest)
  · rw [if_pos h, if_pos h]
    have hop : 0 < old.length := List.length_pos.mpr h.1
    refine congrArg (new ++ ·) (pyReplaceGo_eq_of_le _ _ _ old new ?_ le_rfl)
    simp only [List.length_drop, List.length_cons]
    omega
  · rw [if_neg h, if_neg h]
    rfl

/-- `pyReplace` on the empty input. -/
theorem pyReplace_nil (old new : List Nat) : pyReplace [] old new = [] := rfl

/-- A one-character pattern is a prefix of a nonempty list exactly when
it is the head. -/
theorem prefix_single_iff (x a : Nat) (t : List Nat) :
    ([x].isPrefixOf (a :: t) = true) ↔ a = x := by
  constructor
  · intro h
    simp [List.isPrefixOf] at h
    exact h.symm
  · intro h
    simp [List.isPrefixOf, h]

/-- A two-character pattern is a prefix of a two-or-longer list exactly
when it matches the first two elements. -/
theorem prefix_pair_iff (x y a b : Nat) (t : List Nat) :
    ([x, y].isPrefixOf (a :: b :: t) = true) ↔ (a = x ∧ b = y) := by
  constructor
  · intro h
    simp [List.isPrefixOf] at h
    exact ⟨h.1.symm, h.2.symm⟩
  · rintro ⟨rfl, rfl⟩
    simp [List.isPrefixOf]

/-- A two-character pattern is never a prefix of a singleton. -/
theorem prefix_pair_single (x y c : Nat) :
    ([x, y].isPrefixOf [c]) = false := by
  simp [List.isPrefixOf]

/-- `s.replace('\r\n', '\n')` is the structural CRLF collapse. -/
theorem pyReplace_crlf_eq_repCRLF : ∀ s : List Nat, pyReplace s [13, 10] [10] = repCRLF s := by
  intro s
  induction s using repCRLF.induct with
  | case1 => rfl
  | case2 c =>
    rw [pyReplace_cons, if_neg (fun hcon => by
      rw [prefix_pair_single] at hcon
      exact Bool.false_ne_true hcon.2)]
    rw [pyReplace_nil]
    rfl
  | case3 a b t h ih =>
    rw [pyReplace_cons, if_pos ⟨by simp, (prefix_pair_iff 13 10 a b t).mpr h⟩]
    rw [repCRLF, if_pos h]
    simpa using ih
  | case4 a b t h ih =>
    rw [pyReplace_cons,
      if_neg (fun hcon => h ((prefix_pair_iff 13 10 a b t).mp hcon.2))]
    rw [repCRLF, if_neg h, ih]

/-- `s.replace('\r', '\n')` maps each CR to LF. -/
theorem pyReplace_cr_eq_map :
    ∀ s : List Nat,
      pyReplace s [13] [10] = s.map (fun c => if c = 13 then 10 else c) := by
  intro s
  induction s with
  | nil => rfl
  | cons c t ih =>
    rw [pyReplace_cons]
    by_cases hc : c = 13
    · rw [if_pos ⟨by simp, (prefix_single_iff 13 c t).mpr hc⟩]
      simp [ih, hc]
    · rw [if_neg (fun hcon => hc ((prefix_single_iff 13 c t).mp hcon.2))]
      simp [ih, hc]

/-- `s.replace('\n', eol)` expands each LF to the target terminator. -/
theorem pyReplace_lf_eq_lfToEol :
    ∀ (eol s : List Nat), pyReplace s [10] eol = lfToEol eol s := by
  intro eol s
  induction s with
  | nil => rfl
  | cons c t ih =>
    rw [pyReplace_cons]
    by_cases hc : c = 10
    · rw [if_pos ⟨by simp, (prefix_single_iff 10 c t).mpr hc⟩]
      simp [lfToEol, ih, hc]
    · rw [if_neg (fun hcon => hc ((prefix_single_iff 10 c t).mp hcon.2))]
      simp [lfToEol, ih, hc]

/-- The composition of the three structural replacements is the
single-pass tokenizer. -/
theorem lfToEol_map_repCRLF :
    ∀ (eol s : List Nat),
      lfToEol eol ((repCRLF s).map (fun c => if c = 13 then 10 else c)) =
        normSpec eol s := by
  intro eol s
  induction s using repCRLF.induct with
  | case1 => rfl
  | case2 c =>
    by_cases h13 : c = 13
    · subst h13; simp [repCRLF, lfToEol, normSpec]
    · by_cases h10 : c = 10
      · subst h10; simp [repCRLF, lfToEol, normSpec]
      · simp [repCRLF, lfToEol, normSpec, h13, h10]
  | case3 a b t h ih =>
    obtain ⟨ha, hb⟩ := h
    subst ha hb
    simp only [repCRLF, if_pos (⟨rfl, rfl⟩ : (13:Nat) = 13 ∧ (10:Nat) = 10)]
    simp [lfToEol, normSpec, ih]
  | case4 a b t h ih =>
    simp only [repCRLF, if_neg h]
    by_cases ha : a = 13 ∨ a = 10
    · have hsub : (if a = 13 then 10 else a) = 10 := by
        rcases ha with ha | ha <;> simp [ha]
      simp [lfToEol, normSpec, if_neg h, ha, hsub, ih]
    · have h13 : a ≠ 13 := fun hh => ha (Or.inl hh)
      have h10 : a ≠ 10 := fun hh => ha (Or.inr hh)
      simp [lfToEol, normSpec, if_neg h, ha, h13, h10, ih]

/-- The chained `replace('\r\n','\n')`, `replace('\r','\n')`,
`replace('\n', eol)` of the source equals the single-pass tokenizer
`normSpec` for every target terminator. -/
theorem normalizeEol_eq_normSpec (eol s : List Nat) :
    normalizeEol eol s = normSpec eol s := by
  rw [normalizeEol, pyReplace_crlf_eq_repCRLF, pyReplace_cr_eq_map,
    pyReplace_lf_eq_lfToEol, lfToEol_map_repCRLF]

/-- C3: for each of the three target terminators, the chained
replacement of the source rewrites every maximal terminator token (CRLF
first, then lone CR, then lone LF, so a CRLF pair is never counted
twice) to exactly one copy of the target, leaving all other characters
unchanged and in order — that is, it equals the single-pass tokenizer
`normSpec`. -/
theorem C3_normalize_eol_single_pass :
    ∀ (eol s : List Nat), eol = [13] ∨ eol = [10] ∨ eol = [13, 10] →
      normalizeEol eol s = normSpec eol s :=
  fun eol s _ => normalizeEol_eq_normSpec eol s

/-- Witness for C3 at `eol = LF` on the text `H CR LF W CR X LF`. -/
theorem C3_normalize_eol_single_pass_witness :
    (([10] : List Nat) = [13] ∨ ([10] : List Nat) = [10] ∨
        ([10] : List Nat) = [13, 10]) ∧
      normalizeEol [10] [72, 13, 10, 87, 13, 88, 10] =
        normSpec [10] [72, 13, 10, 87, 13, 88, 10] :=
  ⟨Or.inr (Or.inl rfl),
    C3_normalize_eol_single_pass [10] [72, 13, 10, 87, 13, 88, 10]
      (Or.inr (Or.inl rfl))⟩

/-- C4: after uniform normalization the end-of-file policy acts only on
the trailing characters: `present` appends the terminator exactly when
the text does not already end with it, `absent` removes exactly one
trailing instance exactly when the text ends with it, and `as-is`
leaves the text untouched. -/
theorem C4_end_eol_policy :
    ∀ (eol s : List Nat),
      (eol <:+ s → applyEndEol .present eol s = s) ∧
      (¬ eol <:+ s → applyEndEol .present eol s = s ++ eol) ∧
      (∀ u, s = u ++ eol → applyEndEol .absent eol s = u) ∧
      (¬ eol <:+ s → applyEndEol .absent eol s = s) ∧
      applyEndEol .asIs eol s = s := by
  intro eol s
  refine ⟨?_, ?_, ?_, ?_, ?_⟩
  · intro h
    simp [applyEndEol, h]
  · intro h
    simp [applyEndEol, h]
  · rintro u rfl
    have hsuf : eol <:+ u ++ eol := ⟨u, rfl⟩
    simp only [applyEndEol, hsuf, and_true, not_true_eq_false, and_false,
      if_false, reduceCtorEq, false_and, if_true, if_pos, List.length_append]
    rw [Nat.add_sub_cancel]
    exact List.take_left u eol
  · intro h
    simp [applyEndEol, h]
  · simp [applyEndEol]

/-- Witness for C4: `present` leaves `"H\n"` unchanged for `eol = LF`. -/
theorem C4_end_eol_policy_witness :
    ([10] : List Nat) <:+ [72, 10] ∧ applyEndEol .present [10] [72, 10] = [72, 10] :=
  ⟨⟨[72], rfl⟩, (C4_end_eol_policy [10] [72, 10]).1 ⟨[72], rfl⟩⟩

/-- `List.findIdx?` returns `i` exactly at the first index whose entry
is zero. -/
theorem findIdx?_first_zero :
    ∀ (b : List Nat) (i : Nat), b[i]? = some 0 → (∀ j, j < i → b[j]? ≠ some 0) →
      List.findIdx? (fun x => x == 0) b = some i := by
  intro b
  induction b with
  | nil => intro i h _; simp at h
  | cons c t ih =>
    intro i h hfirst
    cases i with
    | zero =>
      simp only [List.getElem?_cons_zero, Option.some.injEq] at h
      simp [List.findIdx?_cons, h]
    | succ i' =>
      have hc : ¬ c = 0 := by
        have := hfirst 0 (Nat.succ_pos _)
        simpa using this
      have ht := ih i' (by simpa using h) (fun j hj => by
        have := hfirst (j + 1) (Nat.succ_lt_succ hj)
        simpa using this)
      simp [List.findIdx?_cons, hc, ht]

/-- No zero entry means `List.findIdx?` finds nothing. -/
theorem findIdx?_zero_none :
    ∀ b : List Nat, 0 ∉ b → List.findIdx? (fun x => x == 0) b = none := by
  intro b h
  induction b with
  | nil => rfl
  | cons c t ih =>
    have hc : ¬ c = 0 := fun hh => h (by simp [hh])
    have ht := ih (fun hh => h (List.mem_cons_of_mem c hh))
    simp [List.findIdx?_cons, hc, ht]

/-- C5: a byte sequence containing a zero byte is classified as UTF-16
by the parity of the first zero's index — even gives UTF-16BE, odd gives
UTF-16LE — and the fallback list is never consulted (the result is one
of the two UTF-16 encodings). -/
theorem C5_guess_zero_byte_parity :
    ∀ (b : List Nat) (i : Nat),
      b[i]? = some 0 → (∀ j, j < i → b[j]? ≠ some 0) →
      guess_encoding b = some (if i % 2 = 0 then .utf_16_be else .utf_16_le) ∧
        (guess_encoding b = some .utf_16_be ∨ guess_encoding b = some .utf_16_le) := by
  intro b i h hfirst
  have hidx := findIdx?_first_zero b i h hfirst
  have hmain : guess_encoding b = some (if i % 2 = 0 then .utf_16_be else .utf_16_le) := by
    unfold guess_encoding
    rw [hidx]
    by_cases hp : i % 2 = 0 <;> simp [hp]
  refine ⟨hmain, ?_⟩
  by_cases hp : i % 2 = 0
  · exact Or.inl (by rw [hmain, if_pos hp])
  · exact Or.inr (by rw [hmain, if_neg hp])

/-- Witness for C5: `[1, 0]` has its first zero at odd index 1 and is
guessed as UTF-16LE. -/
theorem C5_guess_zero_byte_parity_witness :
    ([1, 0] : List Nat)[1]? = some 0 ∧
      guess_encoding [1, 0] = some (if 1 % 2 = 0 then .utf_16_be else .utf_16_le) :=
  ⟨rfl,
    (C5_guess_zero_byte_parity [1, 0] 1 rfl
      (by intro j hj; interval_cases j; simp)).1⟩

/-- C6: the guesser is total — the defensive `raise` is unreachable
because `latin_1` accepts every byte — and on zero-free input it returns
the first codec of the ordered fallback list that decodes the whole
buffer. -/
theorem C6_guess_total_first_fallback :
    ∀ b : List Nat,
      (guess_encoding b).isSome = true ∧
      (0 ∉ b →
        guess_encoding b =
          List.find? (fun e => (decodeText e b).isSome)
            [.ascii, .utf_8, .cp1252, .latin_1]) := by
  intro b
  constructor
  · unfold guess_encoding
    cases hz : List.findIdx? (fun x => x == 0) b with
    | some i => by_cases hp : i % 2 = 0 <;> simp [hp]
    | none =>
      cases ha : decodeText .ascii b with
      | some _ => simp
      | none =>
        cases hu : decodeText .utf_8 b with
        | some _ => simp
        | none =>
          cases hc : decodeText .cp1252 b with
          | some _ => simp
          | none => simp [decodeText, decodeLatin1]
  · intro h0
    have hz := findIdx?_zero_none b h0
    unfold guess_encoding
    rw [hz]
    cases ha : decodeText .ascii b with
    | some _ => simp [List.find?, ha]
    | none =>
      cases hu : decodeText .utf_8 b with
      | some _ => simp [List.find?, ha, hu]
      | none =>
        cases hc : decodeText .cp1252 b with
        | some _ => simp [List.find?, ha, hu, hc]
        | none =>
          simp only [decodeText] at ha hu hc
          simp [List.find?, decodeText, decodeLatin1, ha, hu, hc]

/-- Witness for C6 at the empty buffer: the guess exists and the
first-success rule applies (the empty buffer decodes as `ascii`). -/
theorem C6_guess_total_first_fallback_witness :
    (guess_encoding []).isSome = true ∧
      guess_encoding [] =
        List.find? (fun e => (decodeText e []).isSome)
          [.ascii, .utf_8, .cp1252, .latin_1] :=
  ⟨(C6_guess_total_first_fallback []).1,
    (C6_guess_total_first_fallback []).2 (by simp)⟩

/-- C7: BOM stripping inspects only the start of the input, testing
UTF-8 (`EF BB BF`, 3 bytes) before UTF-16LE (`FF FE`) before UTF-16BE
(`FE FF`, 2 bytes each); a matching leading mark is removed exactly and
`hadBom` is true, otherwise the bytes pass through unchanged with
`hadBom` false, so BOM byte patterns occurring later in the stream are
ordinary data. -/
theorem C7_strip_bom_leading_only :
    ∀ b : List Nat,
      (∀ t, b = bom8 ++ t → stripBom b = (t, true)) ∧
      (∀ t, b = bom16le ++ t → stripBom b = (t, true)) ∧
      (∀ t, b = bom16be ++ t → stripBom b = (t, true)) ∧
      ((¬ ∃ t, b = bom8 ++ t ∨ b = bom16le ++ t ∨ b = bom16be ++ t) →
        stripBom b = (b, false)) := by
  intro b
  refine ⟨?_, ?_, ?_, ?_⟩
  · rintro t rfl
    have h8 : bom8.isPrefixOf (bom8 ++ t) = true :=
      List.isPrefixOf_iff_prefix.mpr (List.prefix_append bom8 t)
    simp only [stripBom, h8, if_true, if_pos]
    rw [List.drop_left' (by rfl)]
  · rintro t rfl
    have h8 : bom8.isPrefixOf (bom16le ++ t) = false := by
      simp [bom8, bom16le, List.isPrefixOf]
    have hle : bom16le.isPrefixOf (bom16le ++ t) = true :=
      List.isPrefixOf_iff_prefix.mpr (List.prefix_append bom16le t)
    simp only [stripBom, h8, hle, Bool.false_eq_true, if_false, Bool.true_or,
      if_true, if_pos]
    rw [List.drop_left' (by rfl)]
  · rintro t rfl
    have h8 : bom8.isPrefixOf (bom16be ++ t) = false := by
      simp [bom8, bom16be, List.isPrefixOf]
    have hle : bom16le.isPrefixOf (bom16be ++ t) = false := by
      simp [bom16le, bom16be, List.isPrefixOf]
    have hbe : bom16be.isPrefixOf (bom16be ++ t) = true :=
      List.isPrefixOf_iff_prefix.mpr (List.prefix_append bom16be t)
    simp only [stripBom, h8, hle, hbe, Bool.false_eq_true, if_false,
      Bool.false_or, Bool.true_eq, if_true, if_pos]
    rw [List.drop_left' (by rfl)]
  · intro hno
    have h8 : bom8.isPrefixOf b = false := by
      cases hp : bom8.isPrefixOf b with
      | false => rfl
      | true =>
        obtain ⟨t, ht⟩ := List.isPrefixOf_iff_prefix.mp hp
        exact absurd ⟨t, Or.inl ht.symm⟩ hno
    have hle : bom16le.isPrefixOf b = false := by
      cases hp : bom16le.isPrefixOf b with
      | false => rfl
      | true =>
        obtain ⟨t, ht⟩ := List.isPrefixOf_iff_prefix.mp hp
        exact absurd ⟨t, Or.inr (Or.inl ht.symm)⟩ hno
    have hbe : bom16be.isPrefixOf b = false := by
      cases hp : bom16be.isPrefixOf b with
      | false => rfl
      | true =>
        obtain ⟨t, ht⟩ := List.isPrefixOf_iff_prefix.mp hp
        exact absurd ⟨t, Or.inr (Or.inr ht.symm)⟩ hno
    simp [stripBom, h8, hle, hbe]

/-- Witness for C7: a UTF-8 mark followed by `"A"` is stripped to `"A"`
with `hadBom = true`. -/
theorem C7_strip_bom_leading_only_witness :
    ([0xEF, 0xBB, 0xBF, 0x41] : List Nat) = bom8 ++ [0x41] ∧
      stripBom [0xEF, 0xBB, 0xBF, 0x41] = ([0x41], true) :=
  ⟨rfl, (C7_strip_bom_leading_only [0xEF, 0xBB, 0xBF, 0x41]).1 [0x41] rfl⟩

/-- C8: a byte order mark is prepended exactly when the target encoding
is in the UTF family, the input had a mark, and the policy is `as-is`;
the mark written is the one belonging to the target encoding; under
`absent` (or a missing input mark, or a non-UTF target) the encoded
bytes are returned unchanged. -/
theorem C8_add_bom_conditions :
    ∀ (e : Enc) (hb : Bool) (p : BomPolicy) (b : List Nat),
      (e ∈ utf_encoding_names ∧ hb = true ∧ p = .asIs →
        addBom e hb p b = bomBytes e ++ b) ∧
      (p = .absent → addBom e hb p b = b) ∧
      (hb = false → addBom e hb p b = b) ∧
      (e ∉ utf_encoding_names → addBom e hb p b = b) := by
  intro e hb p b
  refine ⟨?_, ?_, ?_, ?_⟩
  · rintro ⟨hmem, rfl, rfl⟩
    cases e <;> simp_all [addBom, utf_encoding_names, bomBytes]
  · rintro rfl
    simp [addBom]
  · rintro rfl
    simp [addBom]
  · intro hmem
    simp [addBom, hmem]

/-- Witness for C8: a UTF-8 target with an input mark and `bom = as-is`
gets the UTF-8 mark prepended. -/
theorem C8_add_bom_conditions_witness :
    (Enc.utf_8 ∈ utf_encoding_names ∧ true = true ∧ BomPolicy.asIs = .asIs) ∧
      addBom .utf_8 true .asIs [0x41] = bomBytes .utf_8 ++ [0x41] :=
  ⟨⟨by simp [utf_encoding_names], rfl, rfl⟩,
    (C8_add_bom_conditions .utf_8 true .asIs [0x41]).1
      ⟨by simp [utf_encoding_names], rfl, rfl⟩⟩

/-- C9: encoding fails exactly under `strict` with some unrepresentable
code point; under `replace` each unrepresentable code point becomes the
encoding of `'?'` (which every catalog encoding can represent); under
`ignore` each is omitted with no error and no placeholder; and when all
code points are representable the three policies encode identically. -/
theorem C9_encode_error_policy :
    ∀ (e : Enc) (s : List Nat),
      (encodeText e .strict s = none ↔ ∃ c ∈ s, encChar e c = none) ∧
      (encodeText e .replace s = some (encReplaceSpec e s)) ∧
      (encodeText e .ignore s = some (encIgnoreSpec e s)) ∧
      encChar e 63 ≠ none ∧
      ((∀ c ∈ s, encChar e c ≠ none) →
        encodeText e .strict s = some (encIgnoreSpec e s) ∧
          encReplaceSpec e s = encIgnoreSpec e s) := by
  intro e s
  have hrep : ∀ u : List Nat, encodeText e .replace u = some (encReplaceSpec e u) := by
    intro u
    induction u with
    | nil => rfl
    | cons c t ih =>
      cases hc : encChar e c with
      | some bs => simp [encodeText, encReplaceSpec, hc, ih]
      | none => simp [encodeText, encReplaceSpec, hc, ih]
  have hign : ∀ u : List Nat, encodeText e .ignore u = some (encIgnoreSpec e u) := by
    intro u
    induction u with
    | nil => rfl
    | cons c t ih =>
      cases hc : encChar e c with
      | some bs => simp [encodeText, encIgnoreSpec, hc, ih]
      | none => simp [encodeText, encIgnoreSpec, hc, ih]
  have hstrict : ∀ u : List Nat,
      (encodeText e .strict u = none ↔ ∃ c ∈ u, encChar e c = none) := by
    intro u
    induction u with
    | nil => simp [encodeText]
    | cons c t ih =>
      cases hc : encChar e c with
      | some bs =>
        constructor
        · intro h
          simp only [encodeText, hc] at h
          cases ht : encodeText e .strict t with
          | some y => rw [ht] at h; simp at h
          | none =>
            obtain ⟨x, hx, hn⟩ := ih.mp ht
            exact ⟨x, List.mem_cons_of_mem c hx, hn⟩
        · rintro ⟨x, hx, hn⟩
          have hx' : x ∈ t := by
            rcases List.mem_cons.mp hx with rfl | h'
            · rw [hc] at hn; cases hn
            · exact h'
          have ht := ih.mpr ⟨x, hx', hn⟩
          simp [encodeText, hc, ht]
      | none =>
        constructor
        · intro _
          exact ⟨c, List.mem_cons_self c t, hc⟩
        · intro _
          simp [encodeText, hc]
  have hall : ∀ u : List Nat, (∀ c ∈ u, encChar e c ≠ none) →
      encodeText e .strict u = some (encIgnoreSpec e u) ∧
        encReplaceSpec e u = encIgnoreSpec e u := by
    intro u
    induction u with
    | nil => intro _; exact ⟨rfl, rfl⟩
    | cons c t ih =>
      intro hs
      cases hcc : encChar e c with
      | none => exact absurd hcc (hs c (List.mem_cons_self c t))
      | some bs =>
        have iht := ih (fun x hx => hs x (List.mem_cons_of_mem c hx))
        constructor
        · simp [encodeText, encIgnoreSpec, hcc, iht.1]
        · simp [encReplaceSpec, encIgnoreSpec, hcc, iht.2]
  have hq : encChar e 63 ≠ none := by cases e <;> decide
  exact ⟨hstrict s, hrep s, hign s, hq, hall s⟩

/-- Witness for C9: every code point of `"Hi"` is ASCII-representable
and the three policies agree there. -/
theorem C9_encode_error_policy_witness :
    (∀ c ∈ ([72, 105] : List Nat), encChar .ascii c ≠ none) ∧
      (encodeText .ascii .strict [72, 105] =
          some (encIgnoreSpec .ascii [72, 105]) ∧
        encReplaceSpec .ascii [72, 105] = encIgnoreSpec .ascii [72, 105]) :=
  ⟨by decide, (C9_encode_error_policy .ascii [72, 105]).2.2.2.2 (by decide)⟩

/-- Unfolding equation of `normSpec` on a two-or-longer list. -/
theorem normSpec_cons2 (eol : List Nat) (a b : Nat) (t : List Nat) :
    normSpec eol (a :: b :: t) =
      if a = 13 ∧ b = 10 then eol ++ normSpec eol t
      else if a = 13 ∨ a = 10 then eol ++ normSpec eol (b :: t)
      else a :: normSpec eol (b :: t) := rfl

/-- Unfolding equation of `normSpec` on a singleton. -/
theorem normSpec_one (eol : List Nat) (c : Nat) :
    normSpec eol [c] = if c = 13 ∨ c = 10 then eol else [c] := rfl

/-- Consing a non-terminator character does not affect `crlfOk`. -/
theorem crlfOk_cons (a : Nat) (u : List Nat) (h13 : a ≠ 13) (h10 : a ≠ 10) :
    crlfOk (a :: u) = crlfOk u := by
  cases u with
  | nil => simp [crlfOk, h13, h10]
  | cons x u' => simp [crlfOk, h13, h10]

/-- A leading CRLF pair is transparent to `crlfOk`. -/
theorem crlfOk_crlf (u : List Nat) : crlfOk (13 :: 10 :: u) = crlfOk u := by
  simp [crlfOk]

/-- The tokenizer output is fully normalized for its terminator. -/
theorem isNorm_normSpec : ∀ (e : Eol) (s : List Nat), isNorm e (normSpec (eolChars e) s) := by
  intro e s
  cases e with
  | lf =>
    show 13 ∉ normSpec [10] s
    induction s using normSpec.induct with
    | eol => exact [10]
    | case1 => simp [normSpec]
    | case2 c hc => simp [normSpec, hc]
    | case3 c hc =>
      simp only [normSpec, if_neg hc, List.mem_singleton]
      intro hh
      exact hc (Or.inl hh.symm)
    | case4 a b t h ih => simpa [normSpec, h] using ih
    | case5 a b t h h' ih => simpa [normSpec, h, h'] using ih
    | case6 a b t h h' ih =>
      have h13 : a ≠ 13 := fun hh => h' (Or.inl hh)
      simp only [normSpec, if_neg h, if_neg h', List.mem_cons, not_or]
      exact ⟨fun hh => h13 hh.symm, ih⟩
  | cr =>
    show 10 ∉ normSpec [13] s
    induction s using normSpec.induct with
    | eol => exact [13]
    | case1 => simp [normSpec]
    | case2 c hc => simp [normSpec, hc]
    | case3 c hc =>
      simp only [normSpec, if_neg hc, List.mem_singleton]
      intro hh
      exact hc (Or.inr hh.symm)
    | case4 a b t h ih => simpa [normSpec, h] using ih
    | case5 a b t h h' ih => simpa [normSpec, h, h'] using ih
    | case6 a b t h h' ih =>
      have h10 : a ≠ 10 := fun hh => h' (Or.inr hh)
      simp only [normSpec, if_neg h, if_neg h', List.mem_cons, not_or]
      exact ⟨fun hh => h10 hh.symm, ih⟩
  | crlf =>
    show crlfOk (normSpec [13, 10] s) = true
    induction s using normSpec.induct with
    | eol => exact [13, 10]
    | case1 => simp [normSpec, crlfOk]
    | case2 c hc =>
      simp only [normSpec, if_pos hc]
      decide
    | case3 c hc =>
      push_neg at hc
      simp [normSpec, crlfOk, hc.1, hc.2]
    | case4 a b t h ih =>
      simp only [normSpec, if_pos h, List.cons_append, List.nil_append]
      rw [crlfOk_crlf]
      exact ih
    | case5 a b t h h' ih =>
      simp only [normSpec, if_neg h, if_pos h', List.cons_append, List.nil_append]
      rw [crlfOk_crlf]
      exact ih
    | case6 a b t h h' ih =>
      have h13 : a ≠ 13 := fun hh => h' (Or.inl hh)
      have h10 : a ≠ 10 := fun hh => h' (Or.inr hh)
      simp only [normSpec, if_neg h, if_neg h']
      rw [crlfOk_cons a _ h13 h10]
      exact ih

/-- Fully normalized text is a fixed point of the tokenizer. -/
theorem normSpec_fix : ∀ (e : Eol) (t : List Nat), isNorm e t → normSpec (eolChars e) t = t := by
  intro e t
  cases e with
  | lf =>
    intro hn
    have hn' : 13 ∉ t := hn
    clear hn
    show normSpec [10] t = t
    induction t using normSpec.induct with
    | eol => exact [10]
    | case1 => rfl
    | case2 c hc =>
      have h13 : c ≠ 13 := fun hh => hn' (by simp [hh])
      have h10 : c = 10 := by
        rcases hc with hh | hh
        · exact absurd hh h13
        · exact hh
      rw [normSpec_one, if_pos hc, h10]
    | case3 c hc => rw [normSpec_one, if_neg hc]
    | case4 a b t h ih =>
      exact absurd (by simp [h.1]) hn'
    | case5 a b t h h' ih =>
      have ha : a = 10 := by
        rcases h' with h13 | h10
        · exact absurd (by simp [h13]) hn'
        · exact h10
      have iht := ih (fun hh => hn' (List.mem_cons_of_mem a hh))
      rw [normSpec_cons2, if_neg h, if_pos h', iht, ha]
      rfl
    | case6 a b t h h' ih =>
      have iht := ih (fun hh => hn' (List.mem_cons_of_mem a hh))
      rw [normSpec_cons2, if_neg h, if_neg h', iht]
  | cr =>
    intro hn
    have hn' : 10 ∉ t := hn
    clear hn
    show normSpec [13] t = t
    induction t using normSpec.induct with
    | eol => exact [13]
    | case1 => rfl
    | case2 c hc =>
      have h10 : c ≠ 10 := fun hh => hn' (by simp [hh])
      have h13 : c = 13 := by
        rcases hc with hh | hh
        · exact hh
        · exact absurd hh h10
      rw [normSpec_one, if_pos hc, h13]
    | case3 c hc => rw [normSpec_one, if_neg hc]
    | case4 a b t h ih =>
      exact absurd (by simp [h.2]) (fun hh => hn' (List.mem_cons_of_mem a hh))
    | case5 a b t h h' ih =>
      have ha : a = 13 := by
        rcases h' with h13 | h10
        · exact h13
        · exact absurd (by simp [h10]) hn'
      have iht := ih (fun hh => hn' (List.mem_cons_of_mem a hh))
      rw [normSpec_cons2, if_neg h, if_pos h', iht, ha]
      rfl
    | case6 a b t h h' ih =>
      have iht := ih (fun hh => hn' (List.mem_cons_of_mem a hh))
      rw [normSpec_cons2, if_neg h, if_neg h', iht]
  | crlf =>
    intro hn
    have hn' : crlfOk t = true := hn
    clear hn
    show normSpec [13, 10] t = t
    induction t using normSpec.induct with
    | eol => exact [13, 10]
    | case1 => rfl
    | case2 c hc =>
      exfalso
      rcases hc with hh | hh <;> rw [hh] at hn' <;> simp [crlfOk] at hn'
    | case3 c hc => rw [normSpec_one, if_neg hc]
    | case4 a b t h ih =>
      obtain ⟨rfl, rfl⟩ := h
      rw [crlfOk_crlf] at hn'
      rw [normSpec_cons2, if_pos ⟨rfl, rfl⟩, ih hn']
      rfl
    | case5 a b t h h' ih =>
      exfalso
      rcases h' with h13 | h10
      · subst h13
        have hb : b ≠ 10 := fun hh => h ⟨rfl, hh⟩
        simp [crlfOk, hb] at hn'
      · subst h10
        have hno : ¬ ((10 : Nat) = 13 ∧ b = 10) := by simp
        simp [crlfOk, hno] at hn'
    | case6 a b t h h' ih =>
      have h13 : a ≠ 13 := fun hh => h' (Or.inl hh)
      have h10 : a ≠ 10 := fun hh => h' (Or.inr hh)
      rw [crlfOk_cons a _ h13 h10] at hn'
      rw [normSpec_cons2, if_neg h, if_neg h', ih hn']

/-- Appending the terminator to normalized text keeps it normalized. -/
theorem isNorm_append_eol : ∀ (e : Eol) (t : List Nat),
    isNorm e t → isNorm e (t ++ eolChars e) := by
  intro e t
  cases e with
  | lf =>
    intro hn
    have hn' : 13 ∉ t := hn
    show 13 ∉ t ++ [10]
    simp only [List.mem_append, List.mem_singleton]
    rintro (h | h)
    · exact hn' h
    · cases h
  | cr =>
    intro hn
    have hn' : 10 ∉ t := hn
    show 10 ∉ t ++ [13]
    simp only [List.mem_append, List.mem_singleton]
    rintro (h | h)
    · exact hn' h
    · cases h
  | crlf =>
    intro hn
    have hn' : crlfOk t = true := hn
    show crlfOk (t ++ [13, 10]) = true
    clear hn
    induction t using crlfOk.induct with
    | case1 => decide
    | case2 c =>
      simp only [crlfOk] at hn'
      have h13 : c ≠ 13 := by
        intro hh; rw [hh] at hn'; simp at hn'
      have h10 : c ≠ 10 := by
        intro hh; rw [hh] at hn'; simp at hn'
      show crlfOk (c :: 13 :: 10 :: []) = true
      rw [crlfOk_cons c _ h13 h10, crlfOk_crlf]
      rfl
    | case3 a b t h ih =>
      obtain ⟨rfl, rfl⟩ := h
      rw [crlfOk_crlf] at hn'
      show crlfOk (13 :: 10 :: (t ++ [13, 10])) = true
      rw [crlfOk_crlf]
      exact ih hn'
    | case4 a b t h h' =>
      exfalso
      rcases h' with h13 | h10
      · subst h13
        have hb : b ≠ 10 := fun hh => h ⟨rfl, hh⟩
        simp [crlfOk, hb] at hn'
      · subst h10
        have : ¬ ((10 : Nat) = 13 ∧ b = 10) := by simp
        simp [crlfOk, this] at hn'
    | case5 a b t h h' ih =>
      have h13 : a ≠ 13 := fun hh => h' (Or.inl hh)
      have h10 : a ≠ 10 := fun hh => h' (Or.inr hh)
      rw [crlfOk_cons a _ h13 h10] at hn'
      show crlfOk (a :: (b :: t ++ [13, 10])) = true
      rw [crlfOk_cons a _ h13 h10]
      exact ih hn'

/-- The `as-is` policy performs no boundary adjustment. -/
theorem applyEndEol_asIs (eol s : List Nat) : applyEndEol .asIs eol s = s := by
  simp [applyEndEol]

/-- The `present` policy is the identity on text already ending with the
terminator. -/
theorem applyEndEol_present_fix (eol s : List Nat) (h : eol <:+ s) :
    applyEndEol .present eol s = s := by
  simp [applyEndEol, h]

/-- The `present` policy always produces text ending with the
terminator. -/
theorem applyEndEol_present_suffix (eol s : List Nat) :
    eol <:+ applyEndEol .present eol s := by
  by_cases h : eol <:+ s
  · rw [applyEndEol_present_fix eol s h]
    exact h
  · have heq : applyEndEol .present eol s = s ++ eol := by
      simp [applyEndEol, h]
    rw [heq]
    exact List.suffix_append s eol

/-- The `present` and `as-is` policies preserve normalization. -/
theorem isNorm_applyEndEol (e : Eol) (p : EndEolPolicy) (t : List Nat)
    (hp : p ≠ .absent) (hn : isNorm e t) :
    isNorm e (applyEndEol p (eolChars e) t) := by
  cases p with
  | absent => exact absurd rfl hp
  | asIs => rw [applyEndEol_asIs]; exact hn
  | present =>
    by_cases h : eolChars e <:+ t
    · rw [applyEndEol_present_fix _ _ h]; exact hn
    · have heq : applyEndEol .present (eolChars e) t = t ++ eolChars e := by
        simp [applyEndEol, h]
      rw [heq]
      exact isNorm_append_eol e t hn

/-- Unfolding equation of `encodeText` on a nonempty text. -/
theorem encodeText_cons (e : Enc) (err : ErrPolicy) (c : Nat) (t : List Nat) :
    encodeText e err (c :: t) =
      match encChar e c with
      | some bs => (encodeText e err t).map (bs ++ ·)
      | none =>
        match err with
        | .strict => none
        | .replace => (encodeText e err t).map (((encChar e 63).getD []) ++ ·)
        | .ignore => encodeText e err t := rfl

/-- ASCII encoding of a code point below 128 is that byte. -/
theorem encChar_ascii_lt (c : Nat) (h : c < 128) : encChar .ascii c = some [c] := by
  simp [encChar, h]

/-- A code point at or above 128 has no ASCII encoding. -/
theorem encChar_ascii_ge (c : Nat) (h : ¬ c < 128) : encChar .ascii c = none := by
  simp [encChar, h]

/-- Bytes below 128 decode as themselves under ASCII. -/
theorem decodeAscii_of_lt :
    ∀ x : List Nat, (∀ b ∈ x, b < 128) → decodeAscii x = some x := by
  intro x h
  induction x with
  | nil => rfl
  | cons c t ih =>
    have hc : c < 128 := h c (List.mem_cons_self c t)
    have iht := ih (fun b hb => h b (List.mem_cons_of_mem c hb))
    simp [decodeAscii, hc, iht]

/-- Code points below 128 encode as themselves under ASCII, whatever the
error policy. -/
theorem encodeAscii_of_lt :
    ∀ (err : ErrPolicy) (v : List Nat), (∀ b ∈ v, b < 128) →
      encodeText .ascii err v = some v := by
  intro err v h
  induction v with
  | nil => rfl
  | cons c t ih =>
    have hc : c < 128 := h c (List.mem_cons_self c t)
    have iht := ih (fun b hb => h b (List.mem_cons_of_mem c hb))
    rw [encodeText_cons, encChar_ascii_lt c hc, iht]
    rfl

/-- Every byte of an ASCII-encoded text is an ASCII-range member of the
text or the replacement byte `'?'`. -/
theorem encodeAscii_mem :
    ∀ (err : ErrPolicy) (s y : List Nat), encodeText .ascii err s = some y →
      ∀ b ∈ y, (b ∈ s ∧ b < 128) ∨ b = 63 := by
  intro err s
  induction s with
  | nil =>
    intro y h b hb
    simp only [encodeText, Option.some.injEq] at h
    rw [← h] at hb
    cases hb
  | cons c t ih =>
    intro y h b hb
    by_cases hc : c < 128
    · rw [encodeText_cons, encChar_ascii_lt c hc] at h
      cases ht : encodeText .ascii err t with
      | none => rw [ht] at h; cases h
      | some y' =>
        rw [ht] at h
        simp only [Option.map_some', Option.some.injEq, List.singleton_append] at h
        rw [← h] at hb
        rcases List.mem_cons.mp hb with rfl | hb'
        · exact Or.inl ⟨List.mem_cons_self _ _, hc⟩
        · rcases ih y' ht b hb' with ⟨hm, hl⟩ | h63
          · exact Or.inl ⟨List.mem_cons_of_mem c hm, hl⟩
          · exact Or.inr h63
    · rw [encodeText_cons, encChar_ascii_ge c hc] at h
      cases err with
      | strict => cases h
      | replace =>
        cases ht : encodeText .ascii .replace t with
        | none => rw [ht] at h; cases h
        | some y' =>
          rw [ht] at h
          simp only [Option.map_some', Option.some.injEq] at h
          rw [← h] at hb
          rcases List.mem_cons.mp hb with rfl | hb'
          · exact Or.inr rfl
          · rcases ih y' ht b hb' with ⟨hm, hl⟩ | h63
            · exact Or.inl ⟨List.mem_cons_of_mem c hm, hl⟩
            · exact Or.inr h63
      | ignore =>
        rcases ih y h b hb with ⟨hm, hl⟩ | h63
        · exact Or.inl ⟨List.mem_cons_of_mem c hm, hl⟩
        · exact Or.inr h63

/-- Every byte of an ASCII-encoded text is below 128. -/
theorem encodeAscii_lt (err : ErrPolicy) (s y : List Nat)
    (h : encodeText .ascii err s = some y) : ∀ b ∈ y, b < 128 := by
  intro b hb
  rcases encodeAscii_mem err s y h b hb with ⟨_, hl⟩ | h63
  · exact hl
  · omega

/-- ASCII encoding preserves the all-tokens-are-CRLF invariant. -/
theorem crlfOk_encodeAscii :
    ∀ (err : ErrPolicy) (s y : List Nat), crlfOk s = true →
      encodeText .ascii err s = some y → crlfOk y = true := by
  intro err s
  induction s using crlfOk.induct with
  | case1 =>
    intro y _ h
    simp only [encodeText, Option.some.injEq] at h
    rw [← h]
    rfl
  | case2 c =>
    intro y hcs h
    have h13 : c ≠ 13 := by intro hh; rw [hh] at hcs; simp [crlfOk] at hcs
    have h10 : c ≠ 10 := by intro hh; rw [hh] at hcs; simp [crlfOk] at hcs
    by_cases hc : c < 128
    · rw [encodeText_cons, encChar_ascii_lt c hc] at h
      simp only [encodeText, Option.map_some', Option.some.injEq,
        List.append_nil] at h
      rw [← h]
      simp [crlfOk, h13, h10]
    · rw [encodeText_cons, encChar_ascii_ge c hc] at h
      cases err with
      | strict => cases h
      | replace =>
        simp only [encodeText, Option.map_some', Option.some.injEq,
          List.append_nil] at h
        rw [← h]
        decide
      | ignore =>
        simp only [encodeText, Option.some.injEq] at h
        rw [← h]
        rfl
  | case3 a b t h ih =>
    obtain ⟨rfl, rfl⟩ := h
    intro y hcs henc
    rw [crlfOk_crlf] at hcs
    rw [encodeText_cons, encChar_ascii_lt 13 (by omega),
      encodeText_cons, encChar_ascii_lt 10 (by omega)] at henc
    cases ht : encodeText .ascii err t with
    | none => rw [ht] at henc; cases henc
    | some y' =>
      rw [ht] at henc
      simp only [Option.map_some', Option.some.injEq, List.singleton_append] at henc
      rw [← henc, crlfOk_crlf]
      exact ih y' hcs ht
  | case4 a b t h h' =>
    intro y hcs _
    exfalso
    rcases h' with h13 | h10
    · subst h13
      have hb : b ≠ 10 := fun hh => h ⟨rfl, hh⟩
      simp [crlfOk, hb] at hcs
    · subst h10
      have hno : ¬ ((10 : Nat) = 13 ∧ b = 10) := by simp
      simp [crlfOk, hno] at hcs
  | case5 a b t h h' ih =>
    intro y hcs henc
    have h13 : a ≠ 13 := fun hh => h' (Or.inl hh)
    have h10 : a ≠ 10 := fun hh => h' (Or.inr hh)
    rw [crlfOk_cons a _ h13 h10] at hcs
    by_cases hc : a < 128
    · rw [encodeText_cons, encChar_ascii_lt a hc] at henc
      cases ht : encodeText .ascii err (b :: t) with
      | none => rw [ht] at henc; cases henc
      | some y' =>
        rw [ht] at henc
        simp only [Option.map_some', Option.some.injEq, List.singleton_append] at henc
        rw [← henc, crlfOk_cons a _ h13 h10]
        exact ih y' hcs ht
    · rw [encodeText_cons, encChar_ascii_ge a hc] at henc
      cases err with
      | strict => cases henc
      | replace =>
        cases ht : encodeText .ascii .replace (b :: t) with
        | none => rw [ht] at henc; cases henc
        | some y' =>
          rw [ht] at henc
          simp only [Option.map_some', Option.some.injEq] at henc
          rw [← henc]
          rw [show ((encChar Enc.ascii 63).getD [] ++ y' : List Nat) = 63 :: y' from rfl]
          rw [crlfOk_cons 63 _ (by omega) (by omega)]
          exact ih y' hcs ht
      | ignore =>
        exact ih y hcs henc

/-- Normalization (for any terminator choice) survives ASCII
encoding. -/
theorem isNorm_encodeAscii (e : Eol) (err : ErrPolicy) (s y : List Nat)
    (hn : isNorm e s) (h : encodeText .ascii err s = some y) : isNorm e y := by
  cases e with
  | lf =>
    have hn' : 13 ∉ s := hn
    show 13 ∉ y
    intro hy
    rcases encodeAscii_mem err s y h 13 hy with ⟨hm, _⟩ | h63
    · exact hn' hm
    · omega
  | cr =>
    have hn' : 10 ∉ s := hn
    show 10 ∉ y
    intro hy
    rcases encodeAscii_mem err s y h 10 hy with ⟨hm, _⟩ | h63
    · exact hn' hm
    · omega
  | crlf => exact crlfOk_encodeAscii err s y hn h

/-- Splitting an encoding along an append of texts. -/
theorem encodeText_append_split (e : Enc) (err : ErrPolicy) :
    ∀ (u v y : List Nat), encodeText e err (u ++ v) = some y →
      ∃ yu yv, encodeText e err u = some yu ∧ encodeText e err v = some yv ∧
        y = yu ++ yv := by
  intro u
  induction u with
  | nil =>
    intro v y h
    exact ⟨[], y, rfl, h, rfl⟩
  | cons c u' ih =>
    intro v y h
    rw [List.cons_append, encodeText_cons] at h
    cases hc : encChar e c with
    | some bs =>
      rw [hc] at h
      cases ht : encodeText e err (u' ++ v) with
      | none => rw [ht] at h; cases h
      | some y1 =>
        rw [ht] at h
        simp only [Option.map_some', Option.some.injEq] at h
        obtain ⟨yu, yv, h1, h2, rfl⟩ := ih v y1 ht
        refine ⟨bs ++ yu, yv, ?_, h2, by rw [← h, List.append_assoc]⟩
        rw [encodeText_cons, hc, h1]
        rfl
    | none =>
      rw [hc] at h
      cases err with
      | strict => cases h
      | replace =>
        cases ht : encodeText e .replace (u' ++ v) with
        | none => rw [ht] at h; cases h
        | some y1 =>
          rw [ht] at h
          simp only [Option.map_some', Option.some.injEq] at h
          obtain ⟨yu, yv, h1, h2, rfl⟩ := ih v y1 ht
          refine ⟨(encChar e 63).getD [] ++ yu, yv, ?_, h2,
            by rw [← h, List.append_assoc]⟩
          rw [encodeText_cons, hc, h1]
          rfl
      | ignore =>
        obtain ⟨yu, yv, h1, h2, rfl⟩ := ih v y h
        refine ⟨yu, yv, ?_, h2, rfl⟩
        rw [encodeText_cons, hc, h1]

/-- The terminator characters ASCII-encode as themselves under every
error policy. -/
theorem encodeAscii_eolChars (e : Eol) (err : ErrPolicy) :
    encodeText .ascii err (eolChars e) = some (eolChars e) := by
  cases e <;> cases err <;> decide

/-- ASCII encoding preserves the ends-with-terminator property. -/
theorem suffix_encodeAscii (e : Eol) (err : ErrPolicy) (s y : List Nat)
    (hsuf : eolChars e <:+ s) (h : encodeText .ascii err s = some y) :
    eolChars e <:+ y := by
  obtain ⟨u, hu⟩ := hsuf
  rw [← hu] at h
  obtain ⟨yu, yv, _, h2, rfl⟩ := encodeText_append_split .ascii err u (eolChars e) y h
  rw [encodeAscii_eolChars e err] at h2
  injection h2 with h2
  rw [← h2]
  exact List.suffix_append yu (eolChars e)

/-- Pure-ASCII bytes never start with a byte order mark. -/
theorem stripBom_of_lt (y : List Nat) (h : ∀ b ∈ y, b < 128) :
    stripBom y = (y, false) := by
  cases y with
  | nil => rfl
  | cons b t =>
    have hb : b < 128 := h b (List.mem_cons_self b t)
    have h8 : bom8.isPrefixOf (b :: t) = false := by
      have hne : ((0xEF : Nat) == b) = false := beq_eq_false_iff_ne.mpr (by omega)
      simp [bom8, List.isPrefixOf, hne]
    have hle : bom16le.isPrefixOf (b :: t) = false := by
      have hne : ((0xFF : Nat) == b) = false := beq_eq_false_iff_ne.mpr (by omega)
      simp [bom16le, List.isPrefixOf, hne]
    have hbe : bom16be.isPrefixOf (b :: t) = false := by
      have hne : ((0xFE : Nat) == b) = false := beq_eq_false_iff_ne.mpr (by omega)
      simp [bom16be, List.isPrefixOf, hne]
    simp [stripBom, h8, hle, hbe]

/-- A non-UTF target never receives a byte order mark. -/
theorem addBom_ascii (hb : Bool) (p : BomPolicy) (b : List Nat) :
    addBom .ascii hb p b = b := by
  simp [addBom, utf_encoding_names]

/-- Core of the amended idempotence: with source and target both
explicitly ASCII and `end_eol ≠ absent`, re-transforming a transform's
output is a no-op. -/
theorem ascii_idem_aux (eolv : Eol) (pend : EndEolPolicy) (bomv : BomPolicy)
    (errv : ErrPolicy) (x y : List Nat) (c : Bool)
    (hend : pend ≠ .absent)
    (h1 : process_file ⟨eolv, pend, bomv, some .ascii, some .ascii, errv⟩ x =
      .ok (y, c)) :
    process_file ⟨eolv, pend, bomv, some .ascii, some .ascii, errv⟩ y =
      .ok (y, false) := by
  simp only [process_file] at h1
  cases hdec : decodeText .ascii (stripBom x).1 with
  | none => simp [hdec] at h1
  | some s0 =>
    simp only [hdec] at h1
    cases henc2 : encodeText .ascii errv
        (applyEndEol pend (eolChars eolv) (normalizeEol (eolChars eolv) s0)) with
    | none => simp [henc2] at h1
    | some b1 =>
      simp only [henc2, addBom_ascii, Except.ok.injEq, Prod.mk.injEq] at h1
      obtain ⟨hy, _⟩ := h1
      subst hy
      have hlt : ∀ b ∈ b1, b < 128 := encodeAscii_lt errv _ b1 henc2
      have hn_s1 : isNorm eolv (normalizeEol (eolChars eolv) s0) := by
        rw [normalizeEol_eq_normSpec]
        exact isNorm_normSpec eolv s0
      have hn_s2 : isNorm eolv
          (applyEndEol pend (eolChars eolv) (normalizeEol (eolChars eolv) s0)) :=
        isNorm_applyEndEol eolv pend _ hend hn_s1
      have hn_y : isNorm eolv b1 := isNorm_encodeAscii eolv errv _ b1 hn_s2 henc2
      have hfix_norm : normalizeEol (eolChars eolv) b1 = b1 := by
        rw [normalizeEol_eq_normSpec]
        exact normSpec_fix eolv b1 hn_y
      have hfix_end : applyEndEol pend (eolChars eolv) b1 = b1 := by
        cases pend with
        | absent => exact absurd rfl hend
        | asIs => exact applyEndEol_asIs _ b1
        | present =>
          exact applyEndEol_present_fix _ _
            (suffix_encodeAscii eolv errv _ b1 (applyEndEol_present_suffix _ _) henc2)
      have hsb : stripBom b1 = (b1, false) := stripBom_of_lt b1 hlt
      have hdec2 : decodeText .ascii b1 = some b1 := decodeAscii_of_lt b1 hlt
      have henc3 : encodeText .ascii errv b1 = some b1 := encodeAscii_of_lt errv b1 hlt
      simp only [process_file, hsb, hdec2, hfix_norm, hfix_end, henc3,
        addBom_ascii, Except.ok.injEq, Prod.mk.injEq]
      simp

/-- C2 amended: idempotence holds when the source encoding is explicitly
`ascii`, the target encoding is `ascii` (directly or via `as-is`), and
`end_eol ≠ absent`: if the first transform succeeds with output `y`, the
second transform on `y` succeeds with output `y` and `changed = false`.
(As originally stated the claim fails; see the counterexample, where BOM
detection consumes content bytes of the first output.) -/
theorem C2_idempotence_ascii :
    ∀ (cfg : Config) (x y : List Nat) (c : Bool),
      cfg.end_eol ≠ .absent →
      cfg.original_encoding = some .ascii →
      (cfg.encoding = none ∨ cfg.encoding = some .ascii) →
      process_file cfg x = .ok (y, c) →
      process_file cfg y = .ok (y, false) := by
  intro cfg x y c hend horig henc h1
  obtain ⟨eolv, pend, bomv, encv, oencv, errv⟩ := cfg
  have horig' : oencv = some .ascii := horig
  subst horig'
  have hend' : pend ≠ .absent := hend
  rcases henc with h | h
  · have h' : encv = none := h
    subst h'
    have hsame : ∀ z : List Nat,
        process_file ⟨eolv, pend, bomv, none, some .ascii, errv⟩ z =
          process_file ⟨eolv, pend, bomv, some .ascii, some .ascii, errv⟩ z :=
      fun _ => rfl
    rw [hsame x] at h1
    rw [hsame y]
    exact ascii_idem_aux eolv pend bomv errv x y c hend' h1
  · have h' : encv = some .ascii := h
    subst h'
    exact ascii_idem_aux eolv pend bomv errv x y c hend' h1

/-- Witness for the amended C2: `"H\r\n"` normalizes to `"H\n"` under
`eol = lf, end_eol = present` with ASCII in and out, and the second
transform is a no-op. -/
theorem C2_idempotence_ascii_witness :
    process_file ⟨.lf, .present, .asIs, some .ascii, some .ascii, .strict⟩
        [72, 13, 10] = .ok ([72, 10], true) ∧
      process_file ⟨.lf, .present, .asIs, some .ascii, some .ascii, .strict⟩
        [72, 10] = .ok ([72, 10], false) :=
  ⟨rfl,
    C2_idempotence_ascii ⟨.lf, .present, .asIs, some .ascii, some .ascii, .strict⟩
      [72, 13, 10] [72, 10] true (by decide) rfl (Or.inr rfl) rfl⟩

end Textfile
